import Mathlib

/-!
Verification of the expense aggregation and list-view logic of the
budget-buddy web application.

The development shallowly embeds the client-side data shaping code:

* the Dashboard aggregator (`src/pages/Dashboard.tsx`): `summarize`
  (the total / this-month / this-week figures computed in `fetchExpenses`),
  `byCategory` (`updateCategoryData`), `trailingSeries`
  (`updateMonthlyTrends`), and the derived budget figures
  (`budgetUsage`, `remainingBudget`);
* the ListView engine (`src/pages/ExpensesList.tsx` and the staged-filter
  variant of the same page): `applyFilter` (the conditionally chained
  query constraints of `fetchExpenses`), `applySort` (`sortedExpenses`),
  `deriveSummary` (`totalExpenses` / count / average), and the local
  Remove mutation of `handleDelete`.

Monetary amounts (JavaScript numbers holding decimal values) are modelled
as rationals.  Calendar dates are modelled by the proleptic Gregorian
calendar; the day-ordinal conversions below are the standard civil-date
algorithms, which agree with the day arithmetic of the JavaScript `Date`
object (`setDate`, `getDay`, month-overflow normalization) at calendar-day
granularity.  A `date` string that fails to parse yields a JavaScript
`Invalid Date` whose comparisons are all false and whose bucket key matches
no chart label; such a date is modelled as `Option.none`.
-/

/-- A calendar date (proleptic Gregorian). -/
structure CivilDate where
  year : Int
  month : Int
  day : Int
deriving DecidableEq, Repr

/-- Day ordinal of a civil date (days since 1970-01-01, negative before).
Standard civil-from-days inverse pair; matches JavaScript `Date` day
arithmetic at day granularity. -/
def daysFromCivil (d : CivilDate) : Int :=
  let y := if d.month ≤ 2 then d.year - 1 else d.year
  let era := Int.ediv y 400
  let yoe := y - era * 400
  let mp := Int.emod (d.month + 9) 12
  let doy := Int.ediv (153 * mp + 2) 5 + d.day - 1
  let doe := yoe * 365 + Int.ediv yoe 4 - Int.ediv yoe 100 + doy
  era * 146097 + doe - 719468

/-- Civil date of a day ordinal (inverse of `daysFromCivil`). -/
def civilFromDays (z : Int) : CivilDate :=
  let z' := z + 719468
  let era := Int.ediv z' 146097
  let doe := z' - era * 146097
  let yoe := Int.ediv (doe - Int.ediv doe 1460 + Int.ediv doe 36524 - Int.ediv doe 146096) 365
  let y := yoe + era * 400
  let doy := doe - (365 * yoe + Int.ediv yoe 4 - Int.ediv yoe 100)
  let mp := Int.ediv (5 * doy + 2) 153
  let d := doy - Int.ediv (153 * mp + 2) 5 + 1
  let m := mp + (if mp < 10 then 3 else -9)
  ⟨if m ≤ 2 then y + 1 else y, m, d⟩

/-- Day of week of a day ordinal, Sunday = 0 (JavaScript `Date.getDay`);
1970-01-01 (ordinal 0) was a Thursday. -/
def weekdaySun (z : Int) : Int := (z + 4) % 7

/-- English short month name, as produced by the short-month
`toLocaleString` formatting used for chart labels. -/
def monthAbbrev (m : Int) : String :=
  if m = 1 then "Jan" else if m = 2 then "Feb" else if m = 3 then "Mar"
  else if m = 4 then "Apr" else if m = 5 then "May" else if m = 6 then "Jun"
  else if m = 7 then "Jul" else if m = 8 then "Aug" else if m = 9 then "Sep"
  else if m = 10 then "Oct" else if m = 11 then "Nov" else if m = 12 then "Dec"
  else "Invalid"

/-- An expense record as the Dashboard page sees it
(`interface Expense` in `Dashboard.tsx`).  `date` is `none` when the
record's date string fails to parse as a valid calendar date. -/
structure DashExpense where
  id : String
  amount : ℚ
  category : String
  description : String
  date : Option CivilDate
deriving DecidableEq, Repr

/-- JavaScript comparison `new Date(r.date) >= boundary` at day
granularity: false whenever the date is invalid (`NaN` compares false). -/
def dateOnOrAfter (d : Option CivilDate) (boundary : Int) : Bool :=
  match d with
  | none => false
  | some d => boundary ≤ daysFromCivil d

/-- Start of the current calendar month:
`new Date(today.getFullYear(), today.getMonth(), 1)`. -/
def firstOfMonthOrd (now : CivilDate) : Int :=
  daysFromCivil ⟨now.year, now.month, 1⟩

/-- Most recent Sunday, normalized to the start of the day:
`firstDayOfWeek.setDate(today.getDate() - today.getDay());
 firstDayOfWeek.setHours(0, 0, 0, 0)`. -/
def sundayStartOrd (now : CivilDate) : Int :=
  daysFromCivil now - weekdaySun (daysFromCivil now)

/-- The three dashboard summary figures. -/
structure Summary where
  total : ℚ
  thisMonth : ℚ
  thisWeek : ℚ
deriving DecidableEq, Repr

/-- The summary computation of `fetchExpenses` in `Dashboard.tsx`
(lines 143-165): `total` is the unconditional sum, `thisMonth` and
`thisWeek` sum the records whose parsed date is on or after the month
start resp. the most recent Sunday. -/
def summarize (records : List DashExpense) (now : CivilDate) : Summary where
  total := (records.map (·.amount)).sum
  thisMonth := ((records.filter (fun r => dateOnOrAfter r.date (firstOfMonthOrd now))).map (·.amount)).sum
  thisWeek := ((records.filter (fun r => dateOnOrAfter r.date (sundayStartOrd now))).map (·.amount)).sum

/-- The server-side period restriction of the dashboard queries:
`.gte('date', startDate.toISOString())`, keeping records whose date is on
or after `startOrd`. -/
def periodFilter (records : List DashExpense) (startOrd : Int) : List DashExpense :=
  records.filter (fun r => dateOnOrAfter r.date startOrd)

/-- One step of the `Map`-based grouping of `updateCategoryData`:
`categoryMap.set(key, (categoryMap.get(key) || 0) + amount)`.  A
JavaScript `Map` keeps the insertion position of an existing key and
appends a fresh key at the end. -/
def upsertAmount (k : String) (v : ℚ) : List (String × ℚ) → List (String × ℚ)
  | [] => [(k, v)]
  | (k', v') :: t => if k' = k then (k', v' + v) :: t else (k', v') :: upsertAmount k v t

/-- The grouping pass of `updateCategoryData`: fold the records through
the category map, in input order. -/
def groupByCategory (records : List DashExpense) : List (String × ℚ) :=
  records.foldl (fun acc r => upsertAmount r.category r.amount acc) []

/-- Stable insertion into a list sorted by the boolean comparator `le`:
the new element goes in front of the first element it compares
less-or-equal to, hence after all earlier strictly-smaller elements and
before any element it ties with that came later. -/
def insortBy (le : α → α → Bool) (a : α) : List α → List α
  | [] => [a]
  | b :: t => if le a b then a :: b :: t else b :: insortBy le a t

/-- Stable sort by the boolean comparator `le`.  JavaScript
`Array.prototype.sort` is a stable sort (ECMAScript 2019), and for the
total preorders induced by the comparators used in this code base the
output of a stable sort is unique, so a stable insertion sort embeds it
faithfully. -/
def stableSortBy (le : α → α → Bool) (l : List α) : List α :=
  l.foldr (insortBy le) []

/-- The per-category totals of `updateCategoryData` (`Dashboard.tsx`
lines 261-274): group by the raw `category` value, then
`.sort((a, b) => b.total - a.total)`, i.e. stably by descending total. -/
def byCategory (records : List DashExpense) : List (String × ℚ) :=
  stableSortBy (fun a b => decide (b.2 ≤ a.2)) (groupByCategory records)

/-- The two chart granularities of `updateMonthlyTrends`. -/
inductive Period where
  | week
  | month
deriving DecidableEq, Repr

/-- Chart label of a day bucket: month abbreviation and day of month
(no year), as built from `getDate()` and the short month name. -/
def dayKeyOf (d : CivilDate) : String :=
  monthAbbrev d.month ++ " " ++ toString d.day

/-- Chart label of a month bucket: month abbreviation and full year. -/
def monthKeyOf (d : CivilDate) : String :=
  monthAbbrev d.month ++ " " ++ toString d.year

/-- Absolute month index of a civil date (months since year 0). -/
def monthIdx (d : CivilDate) : Int := d.year * 12 + (d.month - 1)

/-- Label of an absolute month index; `new Date(y, m, 1)` normalizes a
month overflow exactly like this Euclidean division. -/
def monthKeyOfIdx (mi : Int) : String :=
  monthAbbrev (Int.emod mi 12 + 1) ++ " " ++ toString (Int.ediv mi 12)

/-- The seven day buckets of the weekly trend, oldest first:
ordinals `now - 6, ..., now` (`for (let i = 6; i >= 0; i--)`). -/
def weekBuckets (z : Int) : List Int :=
  (List.range 7).map (fun (j : Nat) => z - 6 + (j : Int))

/-- The six month buckets of the monthly trend, oldest first:
month indices `now - 5, ..., now` (`for (let i = 5; i >= 0; i--)`). -/
def monthBuckets (mi : Int) : List Int :=
  (List.range 6).map (fun (j : Nat) => mi - 5 + (j : Int))

/-- Contribution of one record to the weekly-trend bucket labelled
`label`: the record counts when its date is valid, on or after the start
of the 7-day window, and its own day key equals the bucket's label
(`updateMonthlyTrends`, week branch).  An invalid date contributes
nothing: its window comparison is false. -/
def weekAmount (r : DashExpense) (startOrd : Int) (label : String) : ℚ :=
  match r.date with
  | none => 0
  | some d => if startOrd ≤ daysFromCivil d ∧ dayKeyOf d = label then r.amount else 0

/-- Contribution of one record to the monthly-trend bucket labelled
`label`: the record counts when its own month key equals the bucket's
label (`dataMap.has(monthKey)` restricts to window labels, and the
output only reads window labels).  An invalid date contributes nothing:
its month key is never a window label. -/
def monthAmount (r : DashExpense) (label : String) : ℚ :=
  match r.date with
  | none => 0
  | some d => if monthKeyOf d = label then r.amount else 0

/-- The trend series of `updateMonthlyTrends` (`Dashboard.tsx` lines
288-352).  An empty record collection short-circuits to the empty list
(`if (!allExpenses || allExpenses.length === 0) ... setMonthlyData([])`).
Otherwise the source initializes one zeroed map entry per window label,
adds each matching record to its own key, and emits
`labels.map(label => (\x7b month: label, total: dataMap.get(label) || 0 \x7d))`,
which is exactly a map over the explicit label sequence. -/
def trailingSeries (records : List DashExpense) (now : CivilDate) (p : Period) :
    List (String × ℚ) :=
  if records.isEmpty then []
  else
    match p with
    | .week =>
        let z := daysFromCivil now
        (weekBuckets z).map (fun b =>
          (dayKeyOf (civilFromDays b),
           (records.map (fun r => weekAmount r (z - 6) (dayKeyOf (civilFromDays b)))).sum))
    | .month =>
        let mi := monthIdx now
        (monthBuckets mi).map (fun b =>
          (monthKeyOfIdx b,
           (records.map (fun r => monthAmount r (monthKeyOfIdx b))).sum))

/-- Window length of each granularity: 7 days, 6 months. -/
def windowLen : Period → Nat
  | .week => 7
  | .month => 6

/-- The bucket sequence underlying `trailingSeries`: day ordinals for the
week view, absolute month indices for the month view. -/
def bucketList (now : CivilDate) : Period → List Int
  | .week => weekBuckets (daysFromCivil now)
  | .month => monthBuckets (monthIdx now)

/-- The bucket containing the reference instant. -/
def nowBucket (now : CivilDate) : Period → Int
  | .week => daysFromCivil now
  | .month => monthIdx now

/-- Chart label of a bucket. -/
def bucketLabel : Period → Int → String
  | .week, b => dayKeyOf (civilFromDays b)
  | .month, b => monthKeyOfIdx b

/-- Contribution of one record to the bucket labelled `label`. -/
def bucketAmount (p : Period) (now : CivilDate) (r : DashExpense) (label : String) : ℚ :=
  match p with
  | .week => weekAmount r (daysFromCivil now - 6) label
  | .month => monthAmount r label

/-- JavaScript `Math.round`: round half toward positive infinity. -/
def jsRound (q : ℚ) : Int := ⌊q + 1 / 2⌋

/-- The budget usage bar percentage (`Dashboard.tsx` lines 362-366):
`Math.min(Math.round((spent / budget) * 100), 100)`. -/
def budgetUsage (spent budget : ℚ) : Int :=
  min (jsRound (spent / budget * 100)) 100

/-- The remaining budget figure (`Dashboard.tsx` lines 369-373):
`Math.max(budget - spent, 0)`. -/
def remainingBudget (spent budget : ℚ) : ℚ :=
  max (budget - spent) 0

/-- An expense record as the list view sees it (`types/database.ts`).
The `date` column of the store holds a valid calendar date. -/
structure Expense where
  id : String
  user_id : String
  amount : ℚ
  description : String
  category : String
  date : CivilDate
  created_at : String
  updated_at : Option String
deriving DecidableEq, Repr

/-- The transient filter specification: an unset field (empty input
string in the source) imposes no constraint. -/
structure FilterSpec where
  category : Option String
  startDate : Option CivilDate
  endDate : Option CivilDate
  minAmount : Option ℚ
  maxAmount : Option ℚ
deriving DecidableEq, Repr

/-- The all-unset filter (`clearFilters`). -/
def FilterSpec.empty : FilterSpec := ⟨none, none, none, none, none⟩

/-- The filtering of `fetchExpenses` in `ExpensesList.tsx` (lines 52-88):
each set field of the filter specification conditionally adds one
constraint to the query (`eq` on category, `gte`/`lte` on date,
`gte`/`lte` on amount), so the result is the record list passed through
the corresponding chain of filters. -/
def applyFilter (fs : FilterSpec) (records : List Expense) : List Expense :=
  let q1 := match fs.category with
    | none => records
    | some c => records.filter (fun r => r.category = c)
  let q2 := match fs.startDate with
    | none => q1
    | some s => q1.filter (fun r => daysFromCivil s ≤ daysFromCivil r.date)
  let q3 := match fs.endDate with
    | none => q2
    | some e => q2.filter (fun r => daysFromCivil r.date ≤ daysFromCivil e)
  let q4 := match fs.minAmount with
    | none => q3
    | some m => q3.filter (fun r => m ≤ r.amount)
  match fs.maxAmount with
  | none => q4
  | some m => q4.filter (fun r => r.amount ≤ m)

/-- The specification-side pass predicate: every set field matches. -/
def matchesFilter (fs : FilterSpec) (r : Expense) : Prop :=
  (∀ c ∈ fs.category, r.category = c) ∧
  (∀ s ∈ fs.startDate, daysFromCivil s ≤ daysFromCivil r.date) ∧
  (∀ e ∈ fs.endDate, daysFromCivil r.date ≤ daysFromCivil e) ∧
  (∀ m ∈ fs.minAmount, m ≤ r.amount) ∧
  (∀ m ∈ fs.maxAmount, r.amount ≤ m)

instance (fs : FilterSpec) (r : Expense) : Decidable (matchesFilter fs r) := by
  unfold matchesFilter
  infer_instance

/-- The sortable fields of the list view (`type SortField`; the empty
field is represented by `Option SortField` in the sort configuration). -/
inductive SortField where
  | date
  | amount
  | category
  | description
deriving DecidableEq, Repr

/-- Sort direction. -/
inductive SortDirection where
  | asc
  | desc
deriving DecidableEq, Repr

/-- The sort configuration (`sortConfig`); `none` is the empty field,
for which `sortedExpenses` returns the copied input unchanged. -/
structure SortSpec where
  field : Option SortField
  direction : SortDirection
deriving DecidableEq, Repr

/-- The comparison key extracted by the `switch` of `sortedExpenses`:
dates and amounts as numbers (a date's epoch value is order-isomorphic
to its day ordinal), categories and descriptions as lower-cased text. -/
def sortKey (f : SortField) (r : Expense) : ℚ ⊕ String :=
  match f with
  | .date => Sum.inl ((daysFromCivil r.date : ℚ))
  | .amount => Sum.inl r.amount
  | .category => Sum.inr r.category.toLower
  | .description => Sum.inr r.description.toLower

/-- Three-way comparison in a linear order, as the JavaScript comparator
computes it: `-1` if smaller, `1` if greater, `0` on ties. -/
def cmp3 {κ : Type} [LinearOrder κ] (x y : κ) : Int :=
  if x < y then -1 else if y < x then 1 else 0

/-- Three-way comparison of sort keys.  Keys of one field always lie in
the same summand; the cross-summand cases are arbitrary but fixed. -/
def cmpKey : ℚ ⊕ String → ℚ ⊕ String → Int
  | Sum.inl x, Sum.inl y => cmp3 x y
  | Sum.inr s, Sum.inr t => cmp3 s t
  | Sum.inl _, Sum.inr _ => -1
  | Sum.inr _, Sum.inl _ => 1

/-- The full comparator of `sortedExpenses`: compare the keys of the
chosen field, and flip the sign for the descending direction. -/
def cmpExpense (f : SortField) (dir : SortDirection) (a b : Expense) : Int :=
  match dir with
  | .asc => cmpKey (sortKey f a) (sortKey f b)
  | .desc => -cmpKey (sortKey f a) (sortKey f b)

/-- Boolean at-most-or-tied relation induced by the comparator; a stable
sort by it embeds the JavaScript stable `Array.prototype.sort`. -/
def sortLE (f : SortField) (dir : SortDirection) (a b : Expense) : Bool :=
  decide (cmpExpense f dir a b ≤ 0)

/-- The sorted view `sortedExpenses` (staged-filter list view, lines
282-315): the empty sort field returns the copied input, otherwise the
records are stably sorted by the comparator of the chosen field. -/
def applySort (records : List Expense) (spec : SortSpec) : List Expense :=
  match spec.field with
  | none => records
  | some f => stableSortBy (sortLE f spec.direction) records

/-- The derived figures over the currently filtered list: entry count,
total amount, and the average display, which is the quotient only when
the list is non-empty and a literal zero otherwise
(`ExpensesList.tsx` lines 135 and 355-361). -/
structure SummaryStats where
  count : Nat
  sum : ℚ
  average : ℚ
deriving DecidableEq, Repr

/-- Derivation of the list-view summary figures. -/
def deriveSummary (records : List Expense) : SummaryStats :=
  let s := (records.map (·.amount)).sum
  ⟨records.length, s, if 0 < records.length then s / (records.length : ℚ) else 0⟩

/-- The local working-set update of a successful delete
(`handleDelete`): `expenses.filter(expense => expense.id !== id)`. -/
def applyRemove (id : String) (workingSet : List Expense) : List Expense :=
  workingSet.filter (fun e => e.id ≠ id)

/-- Total amount of the records in one raw category value. -/
def catTotal (records : List DashExpense) (c : String) : ℚ :=
  ((records.filter (fun r => r.category = c)).map (·.amount)).sum

/-- Position of the first record with category `c` in the input. -/
def catIdx (records : List DashExpense) (c : String) : Nat :=
  (records.map (·.category)).indexOf c

/-- First occurrences of a list of keys, in encounter order. -/
def firstOccs : List String → List String
  | [] => []
  | c :: cs => c :: (firstOccs cs).filter (fun x => x ≠ c)

/-- The three-record example collection of the specification
(section 8, end-to-end examples). -/
def exampleRecords : List DashExpense :=
  [⟨"e1", 50, "Food & Dining", "", some ⟨2024, 1, 5⟩⟩,
   ⟨"e2", 30, "Food & Dining", "", some ⟨2024, 1, 10⟩⟩,
   ⟨"e3", 20, "Travel", "", some ⟨2024, 1, 15⟩⟩]

/-- A record whose date string failed to parse. -/
def malformedRecord : DashExpense :=
  ⟨"bad", 5, "Food & Dining", "typo date", none⟩

/-- A well-formed record used alongside `malformedRecord`. -/
def wellFormedRecord : DashExpense :=
  ⟨"good", 7, "Travel", "", some ⟨2024, 1, 15⟩⟩

/-! ### Generic facts about the stable insertion sort -/

theorem insortBy_perm (le : α → α → Bool) (a : α) (m : List α) :
    List.Perm (insortBy le a m) (a :: m) := by
  induction m with
  | nil => exact List.Perm.refl _
  | cons b t ih =>
    simp only [insortBy]
    split
    · exact List.Perm.refl _
    · exact (List.Perm.cons b ih).trans (List.Perm.swap a b t)

theorem stableSortBy_perm (le : α → α → Bool) (l : List α) :
    List.Perm (stableSortBy le l) l := by
  induction l with
  | nil => exact List.Perm.refl _
  | cons a t ih => exact (insortBy_perm le a (stableSortBy le t)).trans (ih.cons a)

theorem pairwise_insortBy (le : α → α → Bool)
    (htrans : ∀ a b c, le a b = true → le b c = true → le a c = true)
    (htot : ∀ a b, le a b = true ∨ le b a = true)
    (a : α) (m : List α) (hm : m.Pairwise (fun x y => le x y = true)) :
    (insortBy le a m).Pairwise (fun x y => le x y = true) := by
  induction m with
  | nil => simp [insortBy]
  | cons b t ih =>
    rcases List.pairwise_cons.mp hm with ⟨hb, ht⟩
    simp only [insortBy]
    split
    case isTrue h =>
      refine List.pairwise_cons.mpr ⟨?_, hm⟩
      intro y hy
      rcases List.mem_cons.mp hy with rfl | hy
      · exact h
      · exact htrans a b y h (hb y hy)
    case isFalse h =>
      refine List.pairwise_cons.mpr ⟨?_, ih ht⟩
      intro y hy
      rcases List.mem_cons.mp ((insortBy_perm le a t).mem_iff.mp hy) with rfl | hy
      · rcases htot y b with h' | h'
        · exact absurd h' h
        · exact h'
      · exact hb y hy

theorem pairwise_stableSortBy (le : α → α → Bool)
    (htrans : ∀ a b c, le a b = true → le b c = true → le a c = true)
    (htot : ∀ a b, le a b = true ∨ le b a = true) (l : List α) :
    (stableSortBy le l).Pairwise (fun x y => le x y = true) := by
  induction l with
  | nil => simp [stableSortBy]
  | cons a t ih => exact pairwise_insortBy le htrans htot a _ ih

theorem filter_insortBy_pos (le : α → α → Bool) (p : α → Bool) (a : α) (m : List α)
    (hpa : p a = true) (hmut : ∀ x ∈ m, p x = true → le a x = true) :
    (insortBy le a m).filter p = a :: m.filter p := by
  induction m with
  | nil => simp [insortBy, hpa]
  | cons b t ih =>
    simp only [insortBy]
    split
    case isTrue h => simp [List.filter_cons, hpa]
    case isFalse h =>
      have hpb : ¬ p b = true := fun hpb => h (hmut b (List.mem_cons_self b t) hpb)
      have ihb := ih (fun x hx hpx => hmut x (List.mem_cons_of_mem b hx) hpx)
      simp [List.filter_cons, hpb, ihb]

theorem filter_insortBy_neg (le : α → α → Bool) (p : α → Bool) (a : α) (m : List α)
    (hpa : ¬ p a = true) :
    (insortBy le a m).filter p = m.filter p := by
  induction m with
  | nil => simp [insortBy, hpa]
  | cons b t ih =>
    simp only [insortBy]
    split
    case isTrue h => simp [List.filter_cons, hpa]
    case isFalse h => simp [List.filter_cons, ih]

theorem filter_stableSortBy (le : α → α → Bool) (p : α → Bool)
    (hmut : ∀ a b, p a = true → p b = true → le a b = true) (l : List α) :
    (stableSortBy le l).filter p = l.filter p := by
  induction l with
  | nil => rfl
  | cons a t ih =>
    show (insortBy le a (stableSortBy le t)).filter p = _
    by_cases hpa : p a = true
    · rw [filter_insortBy_pos le p a _ hpa
        (fun x _ hpx => hmut a x hpa hpx), ih]
      simp [List.filter_cons, hpa]
    · rw [filter_insortBy_neg le p a _ hpa, ih]
      simp [List.filter_cons, hpa]

theorem pairwise_insortBy_refined (le : α → α → Bool) (S : α → α → Prop)
    (htot : ∀ a b, le a b = true ∨ le b a = true)
    (htrans : ∀ a b c, le a b = true → le b c = true → le a c = true)
    (a : α) (m : List α)
    (hm : m.Pairwise (fun x y => le x y = true ∧ (le y x = true → S x y)))
    (hS : ∀ x ∈ m, S a x) :
    (insortBy le a m).Pairwise (fun x y => le x y = true ∧ (le y x = true → S x y)) := by
  induction m with
  | nil => simp [insortBy]
  | cons b t ih =>
    rcases List.pairwise_cons.mp hm with ⟨hb, ht⟩
    simp only [insortBy]
    split
    case isTrue h =>
      refine List.pairwise_cons.mpr ⟨?_, hm⟩
      intro y hy
      rcases List.mem_cons.mp hy with rfl | hy
      · exact ⟨h, fun _ => hS y (List.mem_cons_self y t)⟩
      · exact ⟨htrans a b y h (hb y hy).1, fun _ => hS y (List.mem_cons_of_mem b hy)⟩
    case isFalse h =>
      refine List.pairwise_cons.mpr
        ⟨?_, ih ht (fun x hx => hS x (List.mem_cons_of_mem b hx))⟩
      intro y hy
      rcases List.mem_cons.mp ((insortBy_perm le a t).mem_iff.mp hy) with rfl | hy
      · rcases htot y b with h' | h'
        · exact absurd h' h
        · exact ⟨h', fun hba => absurd hba h⟩
      · exact hb y hy

theorem pairwise_stableSortBy_refined (le : α → α → Bool) (S : α → α → Prop)
    (htot : ∀ a b, le a b = true ∨ le b a = true)
    (htrans : ∀ a b c, le a b = true → le b c = true → le a c = true)
    (l : List α) (hl : l.Pairwise S) :
    (stableSortBy le l).Pairwise (fun x y => le x y = true ∧ (le y x = true → S x y)) := by
  induction l with
  | nil => simp [stableSortBy]
  | cons a t ih =>
    rcases List.pairwise_cons.mp hl with ⟨ha, ht⟩
    exact pairwise_insortBy_refined le S htot htrans a _ (ih ht)
      (fun x hx => ha x ((stableSortBy_perm le t).mem_iff.mp hx))

/-! ### Amount conservation of the category grouping -/

theorem sum_upsertAmount (k : String) (v : ℚ) (m : List (String × ℚ)) :
    ((upsertAmount k v m).map Prod.snd).sum = v + (m.map Prod.snd).sum := by
  induction m with
  | nil => simp [upsertAmount]
  | cons e t ih =>
    simp only [upsertAmount]
    split
    · simp [List.map_cons]; ring
    · simp only [List.map_cons, List.sum_cons, ih]; ring

theorem sum_groupByCategory_aux (l : List DashExpense) :
    ∀ acc : List (String × ℚ),
      (((l.foldl (fun acc r => upsertAmount r.category r.amount acc) acc).map Prod.snd).sum)
        = (acc.map Prod.snd).sum + (l.map (·.amount)).sum := by
  induction l with
  | nil => intro acc; simp
  | cons r t ih =>
    intro acc
    simp only [List.foldl_cons, List.map_cons, List.sum_cons]
    rw [ih (upsertAmount r.category r.amount acc), sum_upsertAmount]
    ring

theorem sum_groupByCategory (l : List DashExpense) :
    ((groupByCategory l).map Prod.snd).sum = (l.map (·.amount)).sum := by
  have h := sum_groupByCategory_aux l []
  simpa [groupByCategory] using h

theorem sum_byCategory (l : List DashExpense) :
    ((byCategory l).map Prod.snd).sum = (l.map (·.amount)).sum := by
  have hperm : List.Perm ((byCategory l).map Prod.snd) ((groupByCategory l).map Prod.snd) :=
    (stableSortBy_perm _ (groupByCategory l)).map Prod.snd
  rw [hperm.sum_eq, sum_groupByCategory]

/-- C1: for every non-empty collection of expense records, the total
computed by `summarize` (the sum of `amount` over all records) equals the
per-category totals of `byCategory` over the same records summed
together (amount conservation across groupings). -/
theorem summarize_total_eq_byCategory_sum
    (records : List DashExpense) (now : CivilDate) (h : records ≠ []) :
    (summarize records now).total = ((byCategory records).map Prod.snd).sum := by
  rw [sum_byCategory]
  rfl

/-- Witness for C1 at a concrete two-record collection. -/
theorem summarize_total_eq_byCategory_sum_witness :
    (summarize
      [⟨"a", 50, "Food & Dining", "lunch", some ⟨2024, 1, 5⟩⟩,
       ⟨"b", 20, "Travel", "bus", some ⟨2024, 1, 15⟩⟩] ⟨2024, 1, 20⟩).total
      = ((byCategory
      [⟨"a", 50, "Food & Dining", "lunch", some ⟨2024, 1, 5⟩⟩,
       ⟨"b", 20, "Travel", "bus", some ⟨2024, 1, 15⟩⟩]).map Prod.snd).sum :=
  summarize_total_eq_byCategory_sum _ ⟨2024, 1, 20⟩ (by simp)

/-! ### ListView mutations and summary figures -/

/-- C9: removing the same id twice yields the same working set as
removing it once; the second Remove is a no-op. -/
theorem applyRemove_idempotent (id : String) (workingSet : List Expense) :
    applyRemove id (applyRemove id workingSet) = applyRemove id workingSet := by
  unfold applyRemove
  induction workingSet with
  | nil => rfl
  | cons e t ih =>
    by_cases h : e.id = id
    · simp [List.filter_cons, h, ih]
    · simp [List.filter_cons, h, ih]

/-- C10: with a positive budget, the budget-usage percentage is clamped
to at most 100 and the remaining-budget figure is never negative. -/
theorem budget_figures_clamped (spent budget : ℚ) (h : 0 < budget) :
    budgetUsage spent budget ≤ 100 ∧ 0 ≤ remainingBudget spent budget :=
  ⟨min_le_right _ _, le_max_right _ _⟩

/-- Witness for C10 with spending exceeding the budget. -/
theorem budget_figures_clamped_witness :
    (0 : ℚ) < 1000 ∧ budgetUsage 1500 1000 ≤ 100 ∧ 0 ≤ remainingBudget 1500 1000 :=
  ⟨by norm_num, budget_figures_clamped 1500 1000 (by norm_num)⟩

/-- C7: the summary over the empty list is all-zero with a defined zero
average, and over a non-empty list the count, sum and average are the
length, the amount total and their exact quotient, so the
division-by-zero branch is never taken. -/
theorem deriveSummary_spec :
    deriveSummary [] = ⟨0, 0, 0⟩ ∧
    ∀ records : List Expense, records ≠ [] →
      (deriveSummary records).count = records.length ∧
      (deriveSummary records).sum = (records.map (·.amount)).sum ∧
      (deriveSummary records).average =
        (deriveSummary records).sum / ((deriveSummary records).count : ℚ) := by
  refine ⟨rfl, ?_⟩
  intro records hr
  refine ⟨rfl, rfl, ?_⟩
  have hpos : 0 < records.length := List.length_pos.mpr hr
  simp only [deriveSummary, if_pos hpos]

/-- Witness for C7 at a concrete one-record list. -/
theorem deriveSummary_spec_witness :
    (deriveSummary [⟨"a", "u", 8, "d", "Travel", ⟨2024, 1, 5⟩, "", none⟩]).average
      = (deriveSummary [⟨"a", "u", 8, "d", "Travel", ⟨2024, 1, 5⟩, "", none⟩]).sum
        / ((deriveSummary [⟨"a", "u", 8, "d", "Travel", ⟨2024, 1, 5⟩, "", none⟩]).count : ℚ) :=
  (deriveSummary_spec.2 _ (by simp)).2.2

/-- C4: a record passes `applyFilter` precisely when every set field of
the filter specification matches it, and the all-unset specification
returns the input unchanged. -/
theorem applyFilter_spec (fs : FilterSpec) (records : List Expense) :
    (∀ r, r ∈ applyFilter fs records ↔ r ∈ records ∧ matchesFilter fs r) ∧
    applyFilter FilterSpec.empty records = records := by
  constructor
  · intro r
    obtain ⟨c, s, e, mi, ma⟩ := fs
    cases c <;> cases s <;> cases e <;> cases mi <;> cases ma <;>
      simp [applyFilter, matchesFilter, List.mem_filter, and_assoc] <;>
      tauto
  · rfl

/-! ### The week boundary of the summary -/

theorem weekdaySun_nonneg (z : Int) : 0 ≤ weekdaySun z := by
  unfold weekdaySun
  omega

theorem weekdaySun_lt_seven (z : Int) : weekdaySun z < 7 := by
  unfold weekdaySun
  omega

/-- C3: the `thisWeek` figure sums the records dated on or after the
most recent Sunday boundary, where the boundary really is a Sunday, lies
at most six days before `now`, and is normalized to the start of the
day (day-ordinal granularity).  For `now` = 2024-01-20 (a Saturday) the
boundary is 2024-01-14, and on the specification's three-record example
the figure is 20. -/
theorem summarize_thisWeek_spec (records : List DashExpense) (now : CivilDate) :
    weekdaySun (sundayStartOrd now) = 0 ∧
    sundayStartOrd now ≤ daysFromCivil now ∧
    daysFromCivil now - sundayStartOrd now < 7 ∧
    (summarize records now).thisWeek =
      ((records.filter (fun r => dateOnOrAfter r.date (sundayStartOrd now))).map (·.amount)).sum ∧
    weekdaySun (daysFromCivil ⟨2024, 1, 20⟩) = 6 ∧
    sundayStartOrd ⟨2024, 1, 20⟩ = daysFromCivil ⟨2024, 1, 14⟩ ∧
    (summarize exampleRecords ⟨2024, 1, 20⟩).thisWeek = 20 := by
  have h5 : dateOnOrAfter (some ⟨2024, 1, 5⟩) (sundayStartOrd ⟨2024, 1, 20⟩) = false := by
    decide
  have h10 : dateOnOrAfter (some ⟨2024, 1, 10⟩) (sundayStartOrd ⟨2024, 1, 20⟩) = false := by
    decide
  have h15 : dateOnOrAfter (some ⟨2024, 1, 15⟩) (sundayStartOrd ⟨2024, 1, 20⟩) = true := by
    decide
  refine ⟨?_, ?_, ?_, rfl, by decide, by decide,
    by simp [summarize, exampleRecords, List.filter_cons, h5, h10, h15]⟩
  · simp only [sundayStartOrd, weekdaySun]
    omega
  · unfold sundayStartOrd
    have := weekdaySun_nonneg (daysFromCivil now)
    omega
  · unfold sundayStartOrd
    have := weekdaySun_lt_seven (daysFromCivil now)
    omega

/-! ### Shape of the trailing trend series -/

theorem weekBuckets_eq (z : Int) :
    weekBuckets z = [z - 6, z - 5, z - 4, z - 3, z - 2, z - 1, z] := by
  simp [weekBuckets, List.range_succ]
  omega

theorem monthBuckets_eq (mi : Int) :
    monthBuckets mi = [mi - 5, mi - 4, mi - 3, mi - 2, mi - 1, mi] := by
  simp [monthBuckets, List.range_succ]
  omega

/-- C2 (amended): for every non-empty record collection, the trend
series has exactly the fixed window length of its granularity (7 days or
6 months), its labels follow the bucket sequence, the buckets are in
strictly increasing chronological order, the last bucket is the one
containing `now`, and a bucket no record matches still appears with a
zero total. -/
theorem trailingSeries_shape (records : List DashExpense) (now : CivilDate)
    (p : Period) (h : records ≠ []) :
    (trailingSeries records now p).length = windowLen p ∧
    (trailingSeries records now p).map Prod.fst = (bucketList now p).map (bucketLabel p) ∧
    (bucketList now p).Pairwise (fun a b => a < b) ∧
    (bucketList now p).getLast? = some (nowBucket now p) ∧
    ∀ b ∈ bucketList now p,
      (∀ r ∈ records, bucketAmount p now r (bucketLabel p b) = 0) →
      (bucketLabel p b, 0) ∈ trailingSeries records now p := by
  have hne : records.isEmpty = false := by
    cases records with
    | nil => exact absurd rfl h
    | cons a t => rfl
  cases p
  case week =>
    simp only [trailingSeries, hne, Bool.false_eq_true, if_false]
    refine ⟨?_, ?_, ?_, ?_, ?_⟩
    · rw [List.length_map]
      simp [weekBuckets, windowLen]
    · simp [List.map_map, bucketList, bucketLabel, Function.comp]
    · show (weekBuckets (daysFromCivil now)).Pairwise _
      rw [weekBuckets_eq]
      simp [List.pairwise_cons]
    · show (weekBuckets (daysFromCivil now)).getLast? = some (daysFromCivil now)
      rw [weekBuckets_eq]
      rfl
    · intro b hb hz
      refine List.mem_map.mpr ⟨b, hb, ?_⟩
      have hsum : (records.map
          (fun r => weekAmount r (daysFromCivil now - 6) (dayKeyOf (civilFromDays b)))).sum = 0 := by
        apply List.sum_eq_zero
        intro x hx
        rcases List.mem_map.mp hx with ⟨r, hr, rfl⟩
        exact hz r hr
      simp [hsum, bucketLabel]
  case month =>
    simp only [trailingSeries, hne, Bool.false_eq_true, if_false]
    refine ⟨?_, ?_, ?_, ?_, ?_⟩
    · rw [List.length_map]
      simp [monthBuckets, windowLen]
    · simp [List.map_map, bucketList, bucketLabel, Function.comp]
    · show (monthBuckets (monthIdx now)).Pairwise _
      rw [monthBuckets_eq]
      simp [List.pairwise_cons]
    · show (monthBuckets (monthIdx now)).getLast? = some (monthIdx now)
      rw [monthBuckets_eq]
      rfl
    · intro b hb hz
      refine List.mem_map.mpr ⟨b, hb, ?_⟩
      have hsum : (records.map (fun r => monthAmount r (monthKeyOfIdx b))).sum = 0 := by
        apply List.sum_eq_zero
        intro x hx
        rcases List.mem_map.mp hx with ⟨r, hr, rfl⟩
        exact hz r hr
      simp [hsum, bucketLabel]

/-- Counterexample for C2 as stated: on the empty collection the code
short-circuits to an empty series instead of producing the six all-zero
month buckets. -/
theorem trailingSeries_empty_counterexample :
    ¬ ((trailingSeries [] ⟨2024, 6, 15⟩ Period.month).length
        = windowLen Period.month) := by
  decide

/-- Witness for C2 (amended) at a concrete one-record collection. -/
theorem trailingSeries_shape_witness :
    (trailingSeries [⟨"e1", 50, "Food & Dining", "", some ⟨2024, 1, 5⟩⟩]
        ⟨2024, 6, 15⟩ Period.month).length = windowLen Period.month :=
  (trailingSeries_shape [⟨"e1", 50, "Food & Dining", "", some ⟨2024, 1, 5⟩⟩]
    ⟨2024, 6, 15⟩ Period.month (by simp)).1

/-! ### Malformed dates in the aggregation -/

/-- C8: a record whose date fails to parse still counts in the
unconditional total of `summarize`, but is excluded from the this-month
and this-week sums, from the period restriction feeding the category
breakdown, and from every trend bucket; no aggregation step fails on it
(all of the embedded operations are total functions). -/
theorem malformed_date_policy (records : List DashExpense) (now : CivilDate)
    (r : DashExpense) (hr : r.date = none) :
    (summarize (r :: records) now).total = r.amount + (summarize records now).total ∧
    (summarize (r :: records) now).thisMonth = (summarize records now).thisMonth ∧
    (summarize (r :: records) now).thisWeek = (summarize records now).thisWeek ∧
    (∀ startOrd, periodFilter (r :: records) startOrd = periodFilter records startOrd) ∧
    (∀ startOrd,
      byCategory (periodFilter (r :: records) startOrd)
        = byCategory (periodFilter records startOrd)) ∧
    (∀ p, records ≠ [] →
      trailingSeries (r :: records) now p = trailingSeries records now p) ∧
    (∀ p, ∀ e ∈ trailingSeries [r] now p, e.2 = 0) := by
  have hfil : ∀ boundary, dateOnOrAfter r.date boundary = false := by
    intro boundary
    rw [hr]
    rfl
  have hper : ∀ startOrd, periodFilter (r :: records) startOrd = periodFilter records startOrd := by
    intro startOrd
    simp [periodFilter, List.filter_cons, hfil]
  refine ⟨?_, ?_, ?_, hper, fun startOrd => by rw [hper], ?_, ?_⟩
  · simp [summarize]
  · simp [summarize, List.filter_cons, hfil]
  · simp [summarize, List.filter_cons, hfil]
  · intro p hrec
    have h1 : (r :: records).isEmpty = false := rfl
    have h2 : records.isEmpty = false := by
      cases records with
      | nil => exact absurd rfl hrec
      | cons a t => rfl
    cases p
    · simp [trailingSeries, h1, h2, weekAmount, hr]
    · simp [trailingSeries, h1, h2, monthAmount, hr]
  · intro p e he
    cases p
    · simp only [trailingSeries] at he
      rcases List.mem_map.mp (by simpa using he) with ⟨b, hb, rfl⟩
      simp [weekAmount, hr]
    · simp only [trailingSeries] at he
      rcases List.mem_map.mp (by simpa using he) with ⟨b, hb, rfl⟩
      simp [monthAmount, hr]

/-- Witness for C8 at a concrete malformed record. -/
theorem malformed_date_policy_witness :
    (summarize [malformedRecord, wellFormedRecord] ⟨2024, 1, 20⟩).total
        = malformedRecord.amount + (summarize [wellFormedRecord] ⟨2024, 1, 20⟩).total ∧
    (summarize [malformedRecord, wellFormedRecord] ⟨2024, 1, 20⟩).thisWeek
        = (summarize [wellFormedRecord] ⟨2024, 1, 20⟩).thisWeek ∧
    trailingSeries [malformedRecord, wellFormedRecord] ⟨2024, 1, 20⟩ Period.month
        = trailingSeries [wellFormedRecord] ⟨2024, 1, 20⟩ Period.month := by
  have h := malformed_date_policy [wellFormedRecord] ⟨2024, 1, 20⟩ malformedRecord rfl
  exact ⟨h.1, h.2.2.1, h.2.2.2.2.2.1 Period.month (by simp)⟩

/-! ### The list-view sort -/

theorem cmp3_nonpos_iff {κ : Type} [LinearOrder κ] (x y : κ) :
    cmp3 x y ≤ 0 ↔ x ≤ y := by
  unfold cmp3
  rcases lt_trichotomy x y with h | h | h
  · simp [h, le_of_lt h]
  · simp [h]
  · simp [h, lt_asymm h, not_le.mpr h]

theorem cmp3_self {κ : Type} [LinearOrder κ] (x : κ) : cmp3 x x = 0 := by
  simp [cmp3]

theorem cmp3_antisymm {κ : Type} [LinearOrder κ] (x y : κ) :
    cmp3 y x = -cmp3 x y := by
  unfold cmp3
  rcases lt_trichotomy x y with h | h | h
  · simp [h, lt_asymm h]
  · simp [h]
  · simp [h, lt_asymm h]

theorem cmpKey_self (x : ℚ ⊕ String) : cmpKey x x = 0 := by
  cases x <;> simp [cmpKey, cmp3_self]

theorem cmpKey_antisymm (x y : ℚ ⊕ String) : cmpKey y x = -cmpKey x y := by
  rcases x with x | x <;> rcases y with y | y
  · exact cmp3_antisymm x y
  · simp [cmpKey]
  · simp [cmpKey]
  · exact cmp3_antisymm x y

theorem cmpKey_nonpos_total (x y : ℚ ⊕ String) :
    cmpKey x y ≤ 0 ∨ cmpKey y x ≤ 0 := by
  rcases x with x | x <;> rcases y with y | y <;>
    simp [cmpKey, cmp3_nonpos_iff, le_total]

theorem cmpKey_nonpos_trans (x y z : ℚ ⊕ String) (h1 : cmpKey x y ≤ 0)
    (h2 : cmpKey y z ≤ 0) : cmpKey x z ≤ 0 := by
  rcases x with x | x <;> rcases y with y | y <;> rcases z with z | z <;>
    simp [cmpKey, cmp3_nonpos_iff] at h1 h2 ⊢ <;>
    exact le_trans h1 h2

theorem sortLE_total (f : SortField) (dir : SortDirection) (a b : Expense) :
    sortLE f dir a b = true ∨ sortLE f dir b a = true := by
  unfold sortLE cmpExpense
  cases dir <;> simp only [decide_eq_true_eq]
  · exact cmpKey_nonpos_total _ _
  · rw [← cmpKey_antisymm, ← cmpKey_antisymm]
    exact cmpKey_nonpos_total _ _

theorem sortLE_trans (f : SortField) (dir : SortDirection) (a b c : Expense)
    (h1 : sortLE f dir a b = true) (h2 : sortLE f dir b c = true) :
    sortLE f dir a c = true := by
  unfold sortLE cmpExpense at h1 h2 ⊢
  cases dir <;> simp only [decide_eq_true_eq] at h1 h2 ⊢
  · exact cmpKey_nonpos_trans _ _ _ h1 h2
  · rw [← cmpKey_antisymm] at h1 h2 ⊢
    exact cmpKey_nonpos_trans _ _ _ h2 h1

theorem sortLE_of_key_eq (f : SortField) (dir : SortDirection) (a b : Expense)
    (h : sortKey f a = sortKey f b) : sortLE f dir a b = true := by
  unfold sortLE cmpExpense
  cases dir <;> simp [h, cmpKey_self]

/-- C5: `applySort` is a stable sort by the chosen field.  The output is
a permutation of the input, pairwise ordered by the field's comparator
(numeric for dates and amounts, case-insensitive text for categories and
descriptions); the descending comparator is the negation of the
ascending one; records with equal keys keep their relative input order
(filtering by any key value commutes with the sort); and the empty sort
field leaves the input unchanged. -/
theorem applySort_spec (records : List Expense) (f : SortField) (dir : SortDirection) :
    List.Perm (applySort records ⟨some f, dir⟩) records ∧
    (applySort records ⟨some f, dir⟩).Pairwise (fun a b => sortLE f dir a b = true) ∧
    (∀ k : ℚ ⊕ String,
      (applySort records ⟨some f, dir⟩).filter (fun r => sortKey f r = k)
        = records.filter (fun r => sortKey f r = k)) ∧
    (∀ a b, cmpExpense f SortDirection.desc a b = -cmpExpense f SortDirection.asc a b) ∧
    applySort records ⟨none, dir⟩ = records := by
  refine ⟨stableSortBy_perm _ records,
    pairwise_stableSortBy _ (sortLE_trans f dir) (sortLE_total f dir) records,
    ?_, fun a b => rfl, rfl⟩
  intro k
  apply filter_stableSortBy
  intro a b ha hb
  exact sortLE_of_key_eq f dir a b
    ((of_decide_eq_true ha).trans (of_decide_eq_true hb).symm)

/-! ### The category grouping: keys, totals, and order -/

theorem map_fst_upsertAmount_mem (k : String) (v : ℚ) (m : List (String × ℚ))
    (h : k ∈ m.map Prod.fst) :
    (upsertAmount k v m).map Prod.fst = m.map Prod.fst := by
  induction m with
  | nil => simp at h
  | cons e t ih =>
    simp only [upsertAmount]
    by_cases he : e.1 = k
    · simp [he]
    · have h' : k ∈ t.map Prod.fst := by
        rw [List.map_cons] at h
        rcases List.mem_cons.mp h with h'' | h''
        · exact absurd h''.symm he
        · exact h''
      simp [he, ih h']

theorem map_fst_upsertAmount_not_mem (k : String) (v : ℚ) (m : List (String × ℚ))
    (h : k ∉ m.map Prod.fst) :
    (upsertAmount k v m).map Prod.fst = m.map Prod.fst ++ [k] := by
  induction m with
  | nil => simp [upsertAmount]
  | cons e t ih =>
    have he : ¬ e.1 = k := by
      intro he
      exact h (by simp [he])
    have h' : k ∉ t.map Prod.fst := by
      intro h'
      exact h (by simp [h'])
    simp [upsertAmount, he, ih h']

theorem groupByCategory_keys_aux (l : List DashExpense) :
    ∀ acc : List (String × ℚ),
      (l.foldl (fun acc r => upsertAmount r.category r.amount acc) acc).map Prod.fst
        = acc.map Prod.fst
          ++ (firstOccs (l.map (·.category))).filter
               (fun c => c ∉ acc.map Prod.fst) := by
  induction l with
  | nil =>
    intro acc
    simp [firstOccs]
  | cons r t ih =>
    intro acc
    simp only [List.foldl_cons, List.map_cons, firstOccs]
    by_cases h : r.category ∈ acc.map Prod.fst
    · rw [ih (upsertAmount r.category r.amount acc),
        map_fst_upsertAmount_mem _ _ _ h, List.filter_cons]
      rw [if_neg (by simp [h])]
      congr 1
      rw [List.filter_filter]
      apply List.filter_congr
      intro c _
      by_cases hc : c = r.category
      · subst hc
        simp [h]
      · simp [hc]
    · rw [ih (upsertAmount r.category r.amount acc),
        map_fst_upsertAmount_not_mem _ _ _ h, List.filter_cons]
      rw [if_pos (by simp [h]), List.filter_filter, List.append_assoc,
        List.singleton_append]
      congr 2
      apply List.filter_congr
      intro c _
      by_cases hc : c = r.category
      · subst hc
        simp
      · simp [hc]

theorem groupByCategory_keys (l : List DashExpense) :
    (groupByCategory l).map Prod.fst = firstOccs (l.map (·.category)) := by
  have h := groupByCategory_keys_aux l []
  simpa [groupByCategory, List.filter_true] using h

theorem mem_firstOccs (cs : List String) (x : String) :
    x ∈ firstOccs cs ↔ x ∈ cs := by
  induction cs with
  | nil => simp [firstOccs]
  | cons c t ih =>
    by_cases hx : x = c <;> simp [firstOccs, List.mem_filter, ih, hx]

theorem firstOccs_nodup (cs : List String) : (firstOccs cs).Nodup := by
  induction cs with
  | nil => simp [firstOccs]
  | cons c t ih =>
    refine List.nodup_cons.mpr ⟨?_, ih.filter _⟩
    intro hc
    have hfalse := (List.mem_filter.mp hc).2
    simp at hfalse

theorem firstOccs_pairwise_idx (cs : List String) :
    (firstOccs cs).Pairwise (fun x y => cs.indexOf x < cs.indexOf y) := by
  induction cs with
  | nil => simp [firstOccs]
  | cons c t ih =>
    refine List.pairwise_cons.mpr ⟨?_, ?_⟩
    · intro y hy
      have hyne : y ≠ c := by simpa using (List.mem_filter.mp hy).2
      rw [List.indexOf_cons_self, List.indexOf_cons_ne _ (Ne.symm hyne)]
      exact Nat.succ_pos _
    · refine (ih.filter _).imp_of_mem ?_
      intro x y hx hy hxy
      have hxc : x ≠ c := by simpa using (List.mem_filter.mp hx).2
      have hyc : y ≠ c := by simpa using (List.mem_filter.mp hy).2
      rw [List.indexOf_cons_ne _ (Ne.symm hxc), List.indexOf_cons_ne _ (Ne.symm hyc)]
      exact Nat.succ_lt_succ hxy

theorem lookup_upsertAmount_self (k : String) (v : ℚ) (m : List (String × ℚ)) :
    List.lookup k (upsertAmount k v m) = some ((List.lookup k m).getD 0 + v) := by
  induction m with
  | nil => simp [upsertAmount, List.lookup]
  | cons e t ih =>
    by_cases he : e.1 = k
    · simp [upsertAmount, he, List.lookup]
    · have hne : (k == e.1) = false := by
        simp [Ne.symm he]
      simp [upsertAmount, he, List.lookup, hne, ih]

theorem lookup_upsertAmount_ne (k c : String) (v : ℚ) (m : List (String × ℚ))
    (h : c ≠ k) :
    List.lookup c (upsertAmount k v m) = List.lookup c m := by
  have hck : (c == k) = false := beq_eq_false_iff_ne.mpr h
  induction m with
  | nil => simp [upsertAmount, List.lookup, hck]
  | cons e t ih =>
    by_cases he : e.1 = k
    · have hce : (c == e.1) = false := by
        rw [he]
        exact hck
      simp [upsertAmount, he, List.lookup, hce, hck]
    · cases hb : (c == e.1) <;> simp [upsertAmount, he, List.lookup, hb, ih]

theorem catTotal_cons (r : DashExpense) (t : List DashExpense) (c : String) :
    catTotal (r :: t) c
      = if r.category = c then r.amount + catTotal t c else catTotal t c := by
  by_cases h : r.category = c <;> simp [catTotal, List.filter_cons, h]

theorem lookup_groupByCategory_aux (l : List DashExpense) :
    ∀ (acc : List (String × ℚ)) (c : String),
      List.lookup c (l.foldl (fun acc r => upsertAmount r.category r.amount acc) acc)
        = match List.lookup c acc with
          | some v => some (v + catTotal l c)
          | none =>
              if c ∈ l.map (·.category) then some (catTotal l c) else none := by
  induction l with
  | nil =>
    intro acc c
    cases h : List.lookup c acc <;> simp [h, catTotal]
  | cons r t ih =>
    intro acc c
    simp only [List.foldl_cons]
    rw [ih]
    by_cases hc : c = r.category
    · subst hc
      have hct : catTotal (r :: t) r.category = r.amount + catTotal t r.category := by
        rw [catTotal_cons, if_pos rfl]
      have hmem : r.category ∈ (r :: t).map (·.category) := by
        simp
      rw [lookup_upsertAmount_self, hct]
      cases h : List.lookup r.category acc
      · simp only [h, hmem, if_pos, Option.getD_none]
        congr 1
        ring
      · simp only [h, Option.getD_some]
        congr 1
        ring
    · have hct : catTotal (r :: t) c = catTotal t c := by
        rw [catTotal_cons, if_neg (fun hh => hc hh.symm)]
      have hmem : (c ∈ (r :: t).map (·.category)) ↔ (c ∈ t.map (·.category)) := by
        rw [List.map_cons, List.mem_cons]
        exact or_iff_right hc
      rw [lookup_upsertAmount_ne _ _ _ _ hc, hct]
      cases h : List.lookup c acc
      · simp only [h]
        by_cases hm : c ∈ t.map (·.category)
        · rw [if_pos hm, if_pos (hmem.mpr hm)]
        · rw [if_neg hm, if_neg (fun hh => hm (hmem.mp hh))]
      · simp only [h]

theorem lookup_groupByCategory (l : List DashExpense) (c : String) :
    List.lookup c (groupByCategory l)
      = if c ∈ l.map (·.category) then some (catTotal l c) else none := by
  have h := lookup_groupByCategory_aux l [] c
  simpa [groupByCategory, List.lookup] using h

theorem lookup_of_mem_of_nodup (m : List (String × ℚ)) (e : String × ℚ)
    (hm : (m.map Prod.fst).Nodup) (he : e ∈ m) :
    List.lookup e.1 m = some e.2 := by
  induction m with
  | nil => simp at he
  | cons f t ih =>
    rcases List.mem_cons.mp he with rfl | he'
    · simp [List.lookup]
    · have hf : f.1 ∉ t.map Prod.fst := by
        rw [List.map_cons] at hm
        exact (List.nodup_cons.mp hm).1
      have hne : (e.1 == f.1) = false := by
        have : e.1 ∈ t.map Prod.fst := List.mem_map_of_mem Prod.fst he'
        simp only [beq_eq_false_iff_ne, ne_eq]
        intro hEq
        exact hf (hEq ▸ this)
      have ht : (t.map Prod.fst).Nodup := by
        rw [List.map_cons] at hm
        exact (List.nodup_cons.mp hm).2
      simp [List.lookup, hne, ih ht he']

theorem groupByCategory_keys_nodup (l : List DashExpense) :
    ((groupByCategory l).map Prod.fst).Nodup := by
  rw [groupByCategory_keys]
  exact firstOccs_nodup _

theorem mem_groupByCategory_total (l : List DashExpense) (e : String × ℚ)
    (he : e ∈ groupByCategory l) :
    e.1 ∈ l.map (·.category) ∧ e.2 = catTotal l e.1 := by
  have hlk := lookup_of_mem_of_nodup _ e (groupByCategory_keys_nodup l) he
  rw [lookup_groupByCategory] at hlk
  by_cases hm : e.1 ∈ l.map (·.category)
  · rw [if_pos hm] at hlk
    exact ⟨hm, (Option.some_inj.mp hlk).symm⟩
  · rw [if_neg hm] at hlk
    exact absurd hlk (by simp)

theorem groupByCategory_pairwise_idx (l : List DashExpense) :
    (groupByCategory l).Pairwise (fun a b => catIdx l a.1 < catIdx l b.1) := by
  have h := firstOccs_pairwise_idx (l.map (·.category))
  rw [← groupByCategory_keys] at h
  exact (List.pairwise_map.mp h).imp (fun hab => hab)

/-- C6 (amended): `byCategory` groups the records by their raw
`category` value (an unrecognized value forms its own group and is not
relabelled), each emitted group carries the exact amount total of its
category, every encountered category is emitted exactly once, the groups
are in descending order of total, ties are broken by the position of the
category's first record in the input, and the empty collection yields
the empty sequence. -/
theorem byCategory_spec (records : List DashExpense) :
    (records = [] → byCategory records = []) ∧
    (∀ e ∈ byCategory records,
      e.1 ∈ records.map (·.category) ∧ e.2 = catTotal records e.1) ∧
    (∀ c ∈ records.map (·.category), c ∈ (byCategory records).map Prod.fst) ∧
    ((byCategory records).map Prod.fst).Nodup ∧
    (byCategory records).Pairwise
      (fun a b => b.2 ≤ a.2 ∧ (a.2 ≤ b.2 → catIdx records a.1 < catIdx records b.1)) := by
  have hperm : List.Perm (byCategory records) (groupByCategory records) :=
    stableSortBy_perm _ _
  refine ⟨?_, ?_, ?_, ?_, ?_⟩
  · intro h
    subst h
    rfl
  · intro e he
    exact mem_groupByCategory_total records e (hperm.mem_iff.mp he)
  · intro c hc
    have : c ∈ (groupByCategory records).map Prod.fst := by
      rw [groupByCategory_keys]
      exact (mem_firstOccs _ c).mpr hc
    exact (hperm.map Prod.fst).mem_iff.mpr this
  · exact ((hperm.map Prod.fst).nodup_iff).mpr (groupByCategory_keys_nodup records)
  · have htot : ∀ a b : String × ℚ,
        (fun a b => decide (b.2 ≤ a.2)) a b = true
          ∨ (fun a b => decide (b.2 ≤ a.2)) b a = true := by
      intro a b
      simp only [decide_eq_true_eq]
      exact (le_total b.2 a.2).imp id id
    have htrans : ∀ a b c : String × ℚ,
        (fun a b => decide (b.2 ≤ a.2)) a b = true
          → (fun a b => decide (b.2 ≤ a.2)) b c = true
          → (fun a b => decide (b.2 ≤ a.2)) a c = true := by
      intro a b c h1 h2
      simp only [decide_eq_true_eq] at h1 h2 ⊢
      exact le_trans h2 h1
    have h := pairwise_stableSortBy_refined
      (fun a b => decide (b.2 ≤ a.2))
      (fun a b => catIdx records a.1 < catIdx records b.1)
      htot htrans (groupByCategory records) (groupByCategory_pairwise_idx records)
    refine h.imp ?_
    intro a b hab
    exact ⟨of_decide_eq_true hab.1, fun hle => hab.2 (decide_eq_true hle)⟩

/-- Counterexample for C6 as stated: a record with the unrecognized
category value "Mystery" forms its own group; it is not bucketed under
"Other". -/
theorem byCategory_unrecognized_counterexample :
    byCategory [⟨"x1", 5, "Mystery", "", some ⟨2024, 1, 5⟩⟩] = [("Mystery", 5)] ∧
    ("Other", (5 : ℚ)) ∉ byCategory [⟨"x1", 5, "Mystery", "", some ⟨2024, 1, 5⟩⟩] := by
  refine ⟨rfl, ?_⟩
  intro h
  rw [show byCategory [⟨"x1", 5, "Mystery", "", some ⟨2024, 1, 5⟩⟩]
      = [("Mystery", 5)] from rfl] at h
  have heq : ("Other", (5 : ℚ)) = ("Mystery", (5 : ℚ)) := List.mem_singleton.mp h
  have hstr : "Other" = "Mystery" := congrArg Prod.fst heq
  exact absurd hstr (by decide)

/-- Witness for C6 (amended) at the empty collection. -/
theorem byCategory_spec_witness :
    byCategory ([] : List DashExpense) = [] :=
  (byCategory_spec []).1 rfl
